import Mathlib

/-!
Shallow embedding of `utils/validate_versions.py`, a release-engineering
helper that synchronizes version strings across the tracked metadata files
of the repository.  Python strings are modelled as lists of characters,
the filesystem as a total map from path names to file contents, and the
parsed JSON package manifest as a structured document.  Raising code is
modelled by returning the final state together with an optional error.
-/

set_option autoImplicit false

namespace ValidateVersions

/-- Python strings are modelled as lists of characters. -/
abbrev Str := List Char

/-- Characters stripped by the Python `str.strip()` default (ASCII whitespace). -/
def isPySpace (c : Char) : Bool :=
  c = ' ' || c = '\t' || c = '\n' || c = '\r' || c = '\x0b' || c = '\x0c'

/-- Boolean test that `pat` is a prefix of `s`; models Python `str.startswith`. -/
def startsWithCl : Str → Str → Bool
  | [], _ => true
  | _ :: _, [] => false
  | p :: ps, c :: cs => p = c && startsWithCl ps cs

/-- Remove the prefix `pat` from `s`, returning the remainder, or `none`
when `pat` is not a prefix of `s`. -/
def dropPre : Str → Str → Option Str
  | [], s => some s
  | _ :: _, [] => none
  | p :: ps, c :: cs => if p = c then dropPre ps cs else none

/-- Substring containment test; models the Python `in` operator on strings. -/
def containsCl (pat : Str) : Str → Bool
  | [] => (dropPre pat []).isSome
  | c :: cs => (dropPre pat (c :: cs)).isSome || containsCl pat cs

theorem dropPre_length {pat s r : Str} (h : dropPre pat s = some r) :
    s.length = pat.length + r.length := by
  induction pat generalizing s with
  | nil => simp [dropPre] at h; simp [h]
  | cons p ps ih =>
    cases s with
    | nil => simp [dropPre] at h
    | cons c cs =>
      simp only [dropPre] at h
      by_cases hc : p = c
      · simp [hc] at h
        have := ih h
        simp [List.length_cons, this]
        omega
      · simp [hc] at h

/-- Fuel-driven worker for `removeAll`; the fuel is always at least the
length of the remaining string, so the fuel-exhausted branch is never
reached on the instances the program evaluates. -/
def removeAllAux (pat : Str) : Nat → Str → Str
  | 0, s => s
  | fuel + 1, s =>
    match dropPre pat s with
    | some r => removeAllAux pat fuel r
    | none =>
      match s with
      | [] => []
      | c :: cs => c :: removeAllAux pat fuel cs

/-- Removal of every occurrence of `pat` in `s`, scanning left to right;
models Python `s.replace(pat, "")` for a nonempty pattern (the program only
ever replaces the fixed version-line marker). -/
def removeAll (pat s : Str) : Str := removeAllAux pat s.length s

/-- Fuel-driven worker for `splitOnCl`; the fuel is always at least the
length of the remaining string, so the fuel-exhausted branch is never
reached on the instances the program evaluates. -/
def splitOnAux (sep : Str) : Nat → Str → List Str
  | 0, s => [s]
  | fuel + 1, s =>
    match dropPre sep s with
    | some r => [] :: splitOnAux sep fuel r
    | none =>
      match s with
      | [] => [[]]
      | c :: cs =>
        match splitOnAux sep fuel cs with
        | [] => [[c]]
        | r :: rs => (c :: r) :: rs

/-- Splitting of `s` on every occurrence of the separator `sep`, scanning
left to right; models Python `s.split(sep)` for a nonempty separator (the
program only ever splits on the fixed three-character separator). -/
def splitOnCl (sep s : Str) : List Str := splitOnAux sep s.length s

/-- Trimming of leading and trailing whitespace; models Python `str.strip()`. -/
def stripCl (s : Str) : Str :=
  ((s.dropWhile isPySpace).reverse.dropWhile isPySpace).reverse

/-- Decomposition of a file into its lines, each line keeping its
terminating newline (the final line may lack one); models Python
`file.readlines()`. -/
def pyReadlines : Str → List Str
  | [] => []
  | c :: rest =>
    if c = '\n' then ['\n'] :: pyReadlines rest
    else
      match pyReadlines rest with
      | [] => [[c]]
      | l :: ls => (c :: l) :: ls

/-- Concatenation of a list of lines back into one file; models Python
`file.writelines(lines)`. -/
def joinAll (L : List Str) : Str := L.foldr (· ++ ·) []

/-! ### The configuration constants of the script -/

/-- The marker `"__version__ = "` beginning each version-declaration line. -/
def VERSION_LINE_START : Str := "__version__ = ".toList

/-- The fixed list of tracked component directories. -/
def DIRECTORIES : List String :=
  ["ml-agents/mlagents/trainers", "ml-agents-envs/mlagents_envs", "gym-unity/gym_unity"]

/-- Path of the native package manifest. -/
def UNITY_PACKAGE_JSON_PATH : String := "com.unity.ml-agents/package.json"

/-- Path of the native source file holding the version constant. -/
def ACADEMY_PATH : String := "com.unity.ml-agents/Runtime/Academy.cs"

/-- The marker substring locating the native version constant line. -/
def NEEDLE : Str := "internal const string k_PackageVersion".toList

/-- The separator `" = "` used to split the native version constant line. -/
def SEP : Str := " = ".toList

/-- Component version file path: `os.path.join(directory, "__init__.py")`. -/
def initPath (d : String) : String := d ++ "/__init__.py"

/-! ### Structured JSON documents

The native package manifest is read with `json.load`, mutated as a Python
dict, and written back with `json.dump(..., indent=2)`.  Documents are
modelled by a mutual inductive family (objects keep their key order, as
Python dicts do). -/

mutual
inductive JVal where
  | str (s : Str)
  | num (n : Int)
  | jbool (b : Bool)
  | null
  | obj (fields : JMembers)
  | arr (elems : JElems)

inductive JMembers where
  | nil
  | cons (key : String) (val : JVal) (rest : JMembers)

inductive JElems where
  | nil
  | cons (val : JVal) (rest : JElems)
end

/-- Membership test for a key of a JSON object; models `"version" in package_json`. -/
def hasKey (k : String) : JMembers → Bool
  | .nil => false
  | .cons k' _ rest => k' = k || hasKey k rest

/-- Assignment to a key of a JSON object, replacing the value at every
entry with that key and keeping the entry order; models
`package_json[k] = v` on a parsed document (whose keys are distinct). -/
def setKey (k : String) (v : JVal) : JMembers → JMembers
  | .nil => .nil
  | .cons k' v' rest =>
    if k' = k then .cons k' v (setKey k v rest) else .cons k' v' (setKey k v rest)

/-- Lookup of the first entry with key `k`. -/
def lookupKey (k : String) : JMembers → Option JVal
  | .nil => none
  | .cons k' v rest => if k' = k then some v else lookupKey k rest

/-- The list of keys of a JSON object, in order. -/
def keysOf : JMembers → List String
  | .nil => []
  | .cons k _ rest => k :: keysOf rest

/-- Escaping of quote and backslash characters inside a JSON string
literal, as `json.dump` performs (the control-character escapes of
`json.dump` are not exercised by this program and are left unmodelled). -/
def jsonEscape : Str → Str
  | [] => []
  | c :: rest =>
    (if c = '"' then ['\\', '"'] else if c = '\\' then ['\\', '\\'] else [c]) ++ jsonEscape rest

/-- A JSON string literal. -/
def jsonQuote (s : Str) : Str := '"' :: jsonEscape s ++ ['"']

/-- Decimal rendering of a JSON number. -/
def jsonNum (n : Int) : Str :=
  if n < 0 then '-' :: Nat.toDigits 10 n.natAbs else Nat.toDigits 10 n.natAbs

/-- Indentation of `indent * lvl` spaces, as emitted by `json.dump` with
the keyword `indent`. -/
def indentCl (indent lvl : Nat) : Str := List.replicate (indent * lvl) ' '

mutual
/-- Serialization of a JSON value at nesting level `lvl`, as `json.dump`
with the given `indent` renders it. -/
def dumpJVal (indent lvl : Nat) : JVal → Str
  | .str s => jsonQuote s
  | .num n => jsonNum n
  | .jbool b => if b then "true".toList else "false".toList
  | .null => "null".toList
  | .obj .nil => "\x7b\x7d".toList
  | .obj (.cons k v rest) =>
    "\x7b\n".toList ++ dumpMembers indent (lvl + 1) k v rest ++
      '\n' :: indentCl indent lvl ++ ['\x7d']
  | .arr .nil => "[]".toList
  | .arr (.cons v rest) =>
    "[\n".toList ++ dumpElems indent (lvl + 1) v rest ++
      '\n' :: indentCl indent lvl ++ [']']
termination_by j => sizeOf j
decreasing_by all_goals (simp <;> omega)

/-- Serialization of the members of a JSON object. -/
def dumpMembers (indent lvl : Nat) (k : String) (v : JVal) : JMembers → Str
  | .nil => indentCl indent lvl ++ jsonQuote k.toList ++ ": ".toList ++ dumpJVal indent lvl v
  | .cons k' v' rest =>
    indentCl indent lvl ++ jsonQuote k.toList ++ ": ".toList ++ dumpJVal indent lvl v ++
      ",\n".toList ++ dumpMembers indent lvl k' v' rest
termination_by rest => sizeOf v + sizeOf rest
decreasing_by all_goals (simp <;> omega)

/-- Serialization of the elements of a JSON array. -/
def dumpElems (indent lvl : Nat) (v : JVal) : JElems → Str
  | .nil => indentCl indent lvl ++ dumpJVal indent lvl v
  | .cons v' rest =>
    indentCl indent lvl ++ dumpJVal indent lvl v ++ ",\n".toList ++ dumpElems indent lvl v' rest
termination_by rest => sizeOf v + sizeOf rest
decreasing_by all_goals (simp <;> omega)
end

/-- Top-level serialization of a JSON value; models `json.dump(x, f, indent)`. -/
def pyJsonDump (indent : Nat) (v : JVal) : Str := dumpJVal indent 0 v

/-! ### The state acted on by the script

The filesystem is a total map from path names to text contents (the claims
assume every configured file exists and is readable).  The parsed form of
the native package manifest is carried alongside the text files: the
manifest file is only ever accessed through `json.load` and `json.dump`,
and `json.load` (a library parser) is represented by this field; the text
written by `json.dump` is still recorded in `files`. -/

structure PyState where
  files : String → Str
  manifest : JMembers

/-- Overwriting one file of the filesystem. -/
def updateFS (f : String → Str) (p : String) (c : Str) : String → Str :=
  fun q => if q = p then c else f q

/-- Errors raised by the script: the `ValueError` of a failed two-value
unpacking of `line.split(" = ")`, and the `RuntimeError` carrying the
search string and the number of lines in which it was found. -/
inductive PyError where
  | valueError
  | runtimeError (needle : Str) (found : Nat)
deriving DecidableEq

/-! ### The functions of the script -/

/-- Returns `s` in double quotes if it is non-None, else the literal
token `None`; models `_escape_non_none`. -/
def _escape_non_none : Option Str → Str
  | some s => '"' :: s ++ ['"']
  | none => "None".toList

/-- The rendered two-line component version file:
`PYTHON_VERSION_FILE_TEMPLATE.format(version=..., release_tag=...)`.
The template is a fixed text with the two rendered tokens substituted at
their single placeholders. -/
def pythonVersionFileContents (version release_tag : Str) : Str :=
  "\n# Version of the library that will be used to upload to pypi\n__version__ = ".toList ++
    version ++
    "\n\n# Git tag that will be checked to determine whether to trigger upload to pypi\n__release_tag__ = ".toList ++
    release_tag ++ "\n".toList

/-- The scan of `extract_version_string` over the lines of the file:
on the first line starting with the marker, return the line with every
occurrence of the marker removed (`str.replace`) and stripped. -/
def extractFromLines : List Str → Option Str
  | [] => none
  | l :: ls =>
    if startsWithCl VERSION_LINE_START l then
      some (stripCl (removeAll VERSION_LINE_START l))
    else extractFromLines ls

/-- Models `extract_version_string(filename)` on the contents of the file. -/
def extract_version_string (contents : Str) : Option Str :=
  extractFromLines (pyReadlines contents)

/-- Models `check_versions()`: collect one extracted token per configured
directory, form the set of distinct tokens, and succeed exactly when the
condition `len(versions) != 1 or None in versions` fails. -/
def check_versions (files : String → Str) : Bool :=
  let version_by_dir : List (String × Option Str) :=
    DIRECTORIES.map fun directory => (directory, extract_version_string (files (initPath directory)))
  let versions : List (Option Str) := (version_by_dir.map Prod.snd).dedup
  if versions.length ≠ 1 ∨ none ∈ versions then false else true

/-- Models `set_package_version(new_version)`: load the manifest, set its
`version` field when present, and dump it back with 2-space indentation. -/
def set_package_version (new_version : Str) (st : PyState) : PyState :=
  let package_json := st.manifest
  let package_json :=
    if hasKey "version" package_json then setKey "version" (.str new_version) package_json
    else package_json
  { files := updateFS st.files UNITY_PACKAGE_JSON_PATH (pyJsonDump 2 (.obj package_json)),
    manifest := package_json }

/-- The replacement right-hand side written into the native constant line:
the text of the f-string used for `right`. -/
def academyRhs (new_version : Str) : Str := " = \"".toList ++ new_version ++ "\";\n".toList

/-- One iteration of the loop of `set_academy_version_string`: a line
containing the needle is split on `" = "` and unpacked into exactly two
parts (any other number of parts raises `ValueError`), and rebuilt as
`left + right`; the count records whether this was a needle line. -/
def processLine (new_version : Str) (l : Str) : Except PyError (Str × Nat) :=
  if containsCl NEEDLE l then
    match splitOnCl SEP l with
    | [left, _right] => .ok (left ++ academyRhs new_version, 1)
    | _ => .error .valueError
  else .ok (l, 0)

/-- The loop of `set_academy_version_string` over all lines, threading the
`found` counter. -/
def academyLoop (new_version : Str) : List Str → Except PyError (List Str × Nat)
  | [] => .ok ([], 0)
  | l :: ls =>
    match processLine new_version l with
    | .error e => .error e
    | .ok (l', k) =>
      match academyLoop new_version ls with
      | .error e => .error e
      | .ok (ls', n) => .ok (l' :: ls', k + n)

/-- The in-memory part of `set_academy_version_string`: run the loop, then
raise `RuntimeError` unless the needle was found exactly once. -/
def academyTransform (new_version : Str) (lines : List Str) : Except PyError (List Str) :=
  match academyLoop new_version lines with
  | .error e => .error e
  | .ok (newLines, found) =>
    if found ≠ 1 then .error (.runtimeError NEEDLE found) else .ok newLines

/-- Models `set_academy_version_string(new_version)`: read the lines of the
native source file, transform them, and write the file back only when no
error was raised (both checks precede the write). -/
def set_academy_version_string (new_version : Str) (st : PyState) : PyState × Option PyError :=
  match academyTransform new_version (pyReadlines (st.files ACADEMY_PATH)) with
  | .error e => (st, some e)
  | .ok newLines =>
    ({ st with files := updateFS st.files ACADEMY_PATH (joinAll newLines) }, none)

/-- Models `set_version(python_version, csharp_version, release_tag)`:
write the rendered template into every component version file, then, when
a native version is supplied, update the manifest and the native source
constant.  The returned state is the filesystem as left behind even when
the final step raises. -/
def set_version (python_version csharp_version release_tag : Option Str) (st : PyState) :
    PyState × Option PyError :=
  let new_contents :=
    pythonVersionFileContents (_escape_non_none python_version) (_escape_non_none release_tag)
  let files1 := DIRECTORIES.foldl (fun f directory => updateFS f (initPath directory) new_contents) st.files
  let st1 : PyState := { st with files := files1 }
  match csharp_version with
  | none => (st1, none)
  | some cv =>
    let package_version := cv ++ "-preview".toList
    let st2 := set_package_version package_version st1
    set_academy_version_string package_version st2

/-- Python truthiness of the optional version flag: `None` and the empty
string are falsy. -/
def truthy : Option Str → Bool
  | none => false
  | some s => !s.isEmpty

/-- Outcome of the `__main__` block. -/
inductive MainOutcome where
  | completed
  | exited (code : Nat)
  | raised (e : PyError)
deriving DecidableEq

/-- Models the `__main__` dispatch: `if args.python_version:` selects write
mode, otherwise verification mode exits with code 0 or 1. -/
def main_dispatch (python_version csharp_version release_tag : Option Str) (st : PyState) :
    PyState × MainOutcome :=
  if truthy python_version then
    match set_version python_version csharp_version release_tag st with
    | (st', none) => (st', .completed)
    | (st', some e) => (st', .raised e)
  else
    (st, .exited (if check_versions st.files then 0 else 1))

/-! ### Helper lemmas about the string primitives -/

theorem dropPre_eq_some_iff {pat s r : Str} : dropPre pat s = some r ↔ s = pat ++ r := by
  induction pat generalizing s with
  | nil => simp [dropPre]
  | cons p ps ih =>
    cases s with
    | nil => simp [dropPre]
    | cons c cs =>
      simp only [dropPre]
      by_cases hc : p = c
      · subst hc; simp [ih]
      · rw [if_neg hc]
        constructor
        · intro h; exact Option.noConfusion h
        · intro h
          rw [List.cons_append] at h
          exact absurd (List.cons_eq_cons.mp h).1.symm hc

theorem dropPre_append (pat x : Str) : dropPre pat (pat ++ x) = some x :=
  dropPre_eq_some_iff.mpr rfl

theorem dropPre_isSome_congr {pat : Str} (u : Str) (h : pat.length ≤ u.length) (t₁ t₂ : Str) :
    (dropPre pat (u ++ t₁)).isSome = (dropPre pat (u ++ t₂)).isSome := by
  induction pat generalizing u with
  | nil => simp [dropPre]
  | cons p ps ih =>
    cases u with
    | nil => simp at h
    | cons c cs =>
      simp only [List.cons_append, dropPre]
      by_cases hc : p = c
      · simp only [hc, if_pos rfl]
        exact ih cs (by simpa using h)
      · simp [hc]

theorem removeAllAux_nil_str {pat : Str} (hp : pat ≠ []) (f : Nat) :
    removeAllAux pat f [] = [] := by
  cases f with
  | zero => rfl
  | succ f =>
    cases pat with
    | nil => exact absurd rfl hp
    | cons p ps => rfl

theorem removeAllAux_congr {pat : Str} (hp : pat ≠ []) :
    ∀ f g s, s.length ≤ f → s.length ≤ g → removeAllAux pat f s = removeAllAux pat g s := by
  intro f
  induction f with
  | zero =>
    intro g s hf _
    have hs : s = [] := by
      cases s with
      | nil => rfl
      | cons c cs => simp at hf
    subst hs
    rw [removeAllAux_nil_str hp, removeAllAux_nil_str hp]
  | succ f ih =>
    intro g s hf hg
    cases s with
    | nil => rw [removeAllAux_nil_str hp, removeAllAux_nil_str hp]
    | cons c cs =>
      have hg1 : ∃ g', g = g' + 1 := by
        cases g with
        | zero => simp at hg
        | succ g' => exact ⟨g', rfl⟩
      obtain ⟨g', rfl⟩ := hg1
      simp only [removeAllAux]
      cases hm : dropPre pat (c :: cs) with
      | some r =>
        have hlen := dropPre_length hm
        have hpat : 0 < pat.length := by
          cases pat with
          | nil => exact absurd rfl hp
          | cons _ _ => simp
        exact ih g' r (by simp at hf hlen ⊢; omega) (by simp at hg hlen ⊢; omega)
      | none =>
        have : removeAllAux pat f cs = removeAllAux pat g' cs :=
          ih g' cs (by simpa using hf) (by simpa using hg)
        simp [this]

theorem removeAll_pos {pat s r : Str} (hp : pat ≠ []) (h : dropPre pat s = some r) :
    removeAll pat s = removeAll pat r := by
  have hlen := dropPre_length h
  have hpat : 0 < pat.length := by
    cases pat with
    | nil => exact absurd rfl hp
    | cons _ _ => simp
  obtain ⟨n, hn⟩ : ∃ n, s.length = n + 1 := ⟨s.length - 1, by omega⟩
  rw [removeAll, hn]
  simp only [removeAllAux, h]
  exact removeAllAux_congr hp n r.length r (by omega) le_rfl

theorem removeAll_neg_cons {pat : Str} {c : Char} {cs : Str} (hp : pat ≠ [])
    (h : dropPre pat (c :: cs) = none) :
    removeAll pat (c :: cs) = c :: removeAll pat cs := by
  rw [removeAll, List.length_cons]
  simp only [removeAllAux, h]
  rfl

theorem removeAll_nil (pat : Str) : removeAll pat [] = [] := rfl

theorem splitOnAux_nil_str {sep : Str} (hs : sep ≠ []) (f : Nat) :
    splitOnAux sep f [] = [[]] := by
  cases f with
  | zero => rfl
  | succ f =>
    cases sep with
    | nil => exact absurd rfl hs
    | cons p ps => rfl

theorem splitOnAux_ne_nil (sep : Str) : ∀ f s, splitOnAux sep f s ≠ [] := by
  intro f
  induction f with
  | zero => intro s; simp [splitOnAux]
  | succ f ih =>
    intro s
    simp only [splitOnAux]
    cases dropPre sep s with
    | some r => simp
    | none =>
      cases s with
      | nil => simp
      | cons c cs =>
        cases hsp : splitOnAux sep f cs with
        | nil => simp [hsp]
        | cons r rs => simp [hsp]

theorem splitOnAux_congr {sep : Str} (hs : sep ≠ []) :
    ∀ f g s, s.length ≤ f → s.length ≤ g → splitOnAux sep f s = splitOnAux sep g s := by
  intro f
  induction f with
  | zero =>
    intro g s hf _
    have hss : s = [] := by
      cases s with
      | nil => rfl
      | cons c cs => simp at hf
    subst hss
    rw [splitOnAux_nil_str hs, splitOnAux_nil_str hs]
  | succ f ih =>
    intro g s hf hg
    cases s with
    | nil => rw [splitOnAux_nil_str hs, splitOnAux_nil_str hs]
    | cons c cs =>
      have hg1 : ∃ g', g = g' + 1 := by
        cases g with
        | zero => simp at hg
        | succ g' => exact ⟨g', rfl⟩
      obtain ⟨g', rfl⟩ := hg1
      cases hm : dropPre sep (c :: cs) with
      | some r =>
        have hlen := dropPre_length hm
        have hsep : 0 < sep.length := by
          cases sep with
          | nil => exact absurd rfl hs
          | cons _ _ => simp
        have h1 : splitOnAux sep (f + 1) (c :: cs) = [] :: splitOnAux sep f r := by
          simp only [splitOnAux, hm]
        have h2 : splitOnAux sep (g' + 1) (c :: cs) = [] :: splitOnAux sep g' r := by
          simp only [splitOnAux, hm]
        rw [h1, h2, ih g' r (by simp at hf hlen ⊢; omega) (by simp at hg hlen ⊢; omega)]
      | none =>
        have ihcs := ih g' cs (by simpa using hf) (by simpa using hg)
        have h1 : splitOnAux sep (f + 1) (c :: cs) =
            match splitOnAux sep f cs with
            | [] => [[c]]
            | r :: rs => (c :: r) :: rs := by
          simp only [splitOnAux, hm]
        have h2 : splitOnAux sep (g' + 1) (c :: cs) =
            match splitOnAux sep g' cs with
            | [] => [[c]]
            | r :: rs => (c :: r) :: rs := by
          simp only [splitOnAux, hm]
        rw [h1, h2, ihcs]

theorem splitOnCl_nil (sep : Str) : splitOnCl sep [] = [[]] := rfl

theorem splitOnCl_ne_nil (sep s : Str) : splitOnCl sep s ≠ [] :=
  splitOnAux_ne_nil sep s.length s

theorem splitOnCl_pos {sep s r : Str} (hs : sep ≠ []) (h : dropPre sep s = some r) :
    splitOnCl sep s = [] :: splitOnCl sep r := by
  have hlen := dropPre_length h
  have hsep : 0 < sep.length := by
    cases sep with
    | nil => exact absurd rfl hs
    | cons _ _ => simp
  obtain ⟨n, hn⟩ : ∃ n, s.length = n + 1 := ⟨s.length - 1, by omega⟩
  rw [splitOnCl, hn]
  simp only [splitOnAux, h]
  rw [splitOnAux_congr hs n r.length r (by omega) le_rfl]
  rfl

theorem splitOnCl_neg_cons {sep : Str} {c : Char} {cs r : Str} {rs : List Str}
    (h : dropPre sep (c :: cs) = none) (hcs : splitOnCl sep cs = r :: rs) :
    splitOnCl sep (c :: cs) = (c :: r) :: rs := by
  rw [splitOnCl, List.length_cons]
  simp only [splitOnAux, h]
  rw [show splitOnAux sep cs.length cs = splitOnCl sep cs from rfl, hcs]

/-- Reassembly of the pieces of a split, interleaving the separator. -/
def joinWithSep (sep : Str) : List Str → Str
  | [] => []
  | [x] => x
  | x :: xs => x ++ sep ++ joinWithSep sep xs

theorem joinWithSep_cons_cons (sep x y : Str) (ys : List Str) :
    joinWithSep sep (x :: y :: ys) = x ++ sep ++ joinWithSep sep (y :: ys) := rfl

theorem splitOnCl_reconstruct {sep : Str} (hs : sep ≠ []) :
    ∀ s, joinWithSep sep (splitOnCl sep s) = s := by
  suffices h : ∀ f s, s.length ≤ f → joinWithSep sep (splitOnAux sep f s) = s by
    intro s; exact h s.length s le_rfl
  intro f
  induction f with
  | zero =>
    intro s hf
    have hss : s = [] := by
      cases s with
      | nil => rfl
      | cons c cs => simp at hf
    subst hss; rfl
  | succ f ih =>
    intro s hf
    cases hm : dropPre sep s with
    | some r =>
      have hstep : splitOnAux sep (f + 1) s = [] :: splitOnAux sep f r := by
        simp only [splitOnAux, hm]
      have hlen := dropPre_length hm
      have hsep : 0 < sep.length := by
        cases sep with
        | nil => exact absurd rfl hs
        | cons _ _ => simp
      have hr : joinWithSep sep (splitOnAux sep f r) = r := ih r (by omega)
      obtain ⟨x, xs, hx⟩ : ∃ x xs, splitOnAux sep f r = x :: xs := by
        cases hsp : splitOnAux sep f r with
        | nil => exact absurd hsp (splitOnAux_ne_nil sep f r)
        | cons x xs => exact ⟨x, xs, rfl⟩
      rw [hstep, hx]
      rw [hx] at hr
      rw [joinWithSep_cons_cons, List.nil_append, hr]
      exact (dropPre_eq_some_iff.mp hm).symm
    | none =>
      cases s with
      | nil => rw [splitOnAux_nil_str hs]; rfl
      | cons c cs =>
        have hcs : joinWithSep sep (splitOnAux sep f cs) = cs := ih cs (by simpa using hf)
        cases hsp : splitOnAux sep f cs with
        | nil => exact absurd hsp (splitOnAux_ne_nil sep f cs)
        | cons r rs =>
          have hstep : splitOnAux sep (f + 1) (c :: cs) = (c :: r) :: rs := by
            simp only [splitOnAux, hm, hsp]
          rw [hstep]
          rw [hsp] at hcs
          cases rs with
          | nil => simpa [joinWithSep] using hcs
          | cons r' rs' =>
            rw [joinWithSep_cons_cons]
            rw [joinWithSep_cons_cons] at hcs
            simp [hcs]

theorem splitOnCl_pair_reconstruct {sep l a b : Str} (hs : sep ≠ [])
    (h : splitOnCl sep l = [a, b]) : l = a ++ sep ++ b := by
  have := splitOnCl_reconstruct hs l
  rw [h] at this
  simpa [joinWithSep] using this.symm

theorem splitOnCl_append_pair {sep : Str} (hs : sep ≠ []) :
    ∀ (a : Str) (l b : Str), splitOnCl sep l = [a, b] →
      ∀ c, splitOnCl sep (a ++ sep ++ c) = a :: splitOnCl sep c := by
  intro a
  induction a with
  | nil =>
    intro l b _ c
    rw [List.nil_append]
    exact splitOnCl_pos hs (dropPre_append sep c)
  | cons x a' ih =>
    intro l b hl c
    cases hm : dropPre sep l with
    | some r =>
      rw [splitOnCl_pos hs hm] at hl
      simp at hl
    | none =>
      cases l with
      | nil => rw [splitOnCl_nil] at hl; simp at hl
      | cons c₀ cs =>
        cases hsp : splitOnCl sep cs with
        | nil => exact absurd hsp (splitOnCl_ne_nil sep cs)
        | cons r rs =>
          rw [splitOnCl_neg_cons hm hsp] at hl
          obtain ⟨hc₀, hr, hrs⟩ : c₀ = x ∧ r = a' ∧ rs = [b] := by
            have h1 : c₀ :: r = x :: a' := (List.cons_eq_cons.mp hl).1
            have h2 : rs = [b] := (List.cons_eq_cons.mp hl).2.symm ▸ rfl
            exact ⟨(List.cons_eq_cons.mp h1).1, (List.cons_eq_cons.mp h1).2,
              (List.cons_eq_cons.mp hl).2⟩
          subst hc₀; subst hr; subst hrs
          have hcs2 : splitOnCl sep cs = [r, b] := hsp
          have hcseq : cs = r ++ sep ++ b := splitOnCl_pair_reconstruct hs hcs2
          have ihc := ih cs b hcs2
          have hnone : dropPre sep ((c₀ :: r) ++ sep ++ c) = none := by
            have hlen : sep.length ≤ ((c₀ :: r) ++ sep).length := by simp; omega
            have hcong := dropPre_isSome_congr ((c₀ :: r) ++ sep) hlen c b
            have hmb : dropPre sep ((c₀ :: r) ++ sep ++ b) = none := by
              have heq : (c₀ :: r) ++ sep ++ b = c₀ :: cs := by
                rw [hcseq]; simp
              rw [heq]; exact hm
            rw [List.append_assoc, List.append_assoc] at hcong
            rw [List.append_assoc]
            cases hx : dropPre sep (c₀ :: r ++ (sep ++ c)) with
            | none => rfl
            | some y =>
              rw [hx] at hcong
              rw [show c₀ :: r ++ (sep ++ b) = (c₀ :: r) ++ sep ++ b by simp] at hcong
              rw [hmb] at hcong
              simp at hcong
          have hshape : (c₀ :: r) ++ sep ++ c = c₀ :: (r ++ sep ++ c) := by simp
          rw [hshape] at hnone ⊢
          exact splitOnCl_neg_cons hnone (ihc c)

/-! ### Wellformed line lists

The output of `pyReadlines` consists of nonempty lines whose only newline
is a final one (the last line may lack it); concatenating such a list and
reading it back line by line is the identity. -/

/-- A line that ends with its only newline character. -/
def goodLine (l : Str) : Prop := ∃ body, '\n' ∉ body ∧ l = body ++ ['\n']

/-- Admissible shape of a final line: newline-terminated or newline-free. -/
def lastLineOK (l : Str) : Prop := goodLine l ∨ ('\n' ∉ l ∧ l ≠ [])

/-- Wellformedness of a line list as produced by `pyReadlines`. -/
def linesWF : List Str → Prop
  | [] => True
  | [l] => lastLineOK l
  | l :: l' :: ls => goodLine l ∧ linesWF (l' :: ls)

theorem goodLine_cons {c : Char} {l : Str} (hc : c ≠ '\n') (h : goodLine l) :
    goodLine (c :: l) := by
  obtain ⟨body, hb, rfl⟩ := h
  exact ⟨c :: body, by simp [hb, eq_comm, hc], rfl⟩

theorem linesWF_cons {x : Str} {L : List Str} (hx : goodLine x) (hL : linesWF L) :
    linesWF (x :: L) := by
  cases L with
  | nil => exact Or.inl hx
  | cons l' ls => exact ⟨hx, hL⟩

theorem linesWF_cons_inv {x : Str} {L : List Str} (h : linesWF (x :: L)) : linesWF L := by
  cases L with
  | nil => trivial
  | cons l' ls => exact h.2

theorem linesWF_head {x : Str} {L : List Str} (h : linesWF (x :: L)) : lastLineOK x := by
  cases L with
  | nil => exact h
  | cons l' ls => exact Or.inl h.1

theorem pyReadlines_body_append {body : Str} (hb : '\n' ∉ body) (s : Str) :
    pyReadlines (body ++ '\n' :: s) = (body ++ ['\n']) :: pyReadlines s := by
  induction body with
  | nil => simp [pyReadlines]
  | cons c body' ih =>
    have hc : c ≠ '\n' := fun h => hb (h ▸ List.mem_cons_self c body')
    have hb' : '\n' ∉ body' := fun h => hb (List.mem_cons_of_mem c h)
    rw [List.cons_append]
    rw [pyReadlines]
    rw [if_neg hc, ih hb']
    rfl

theorem pyReadlines_no_nl {l : Str} (hn : '\n' ∉ l) (hne : l ≠ []) : pyReadlines l = [l] := by
  induction l with
  | nil => exact absurd rfl hne
  | cons c cs ih =>
    have hc : c ≠ '\n' := fun h => hn (h ▸ List.mem_cons_self c cs)
    have hn' : '\n' ∉ cs := fun h => hn (List.mem_cons_of_mem c h)
    rw [pyReadlines, if_neg hc]
    cases cs with
    | nil => rfl
    | cons c' cs' => rw [ih hn' (by simp)]

theorem linesWF_pyReadlines (s : Str) : linesWF (pyReadlines s) := by
  induction s with
  | nil => trivial
  | cons c rest ih =>
    rw [pyReadlines]
    by_cases hc : c = '\n'
    · rw [if_pos hc]
      exact linesWF_cons ⟨[], by simp, rfl⟩ ih
    · rw [if_neg hc]
      cases hsp : pyReadlines rest with
      | nil => exact Or.inr ⟨by simp [eq_comm, hc], by simp⟩
      | cons l ls =>
        rw [hsp] at ih
        cases ls with
        | nil =>
          cases ih with
          | inl hg => exact Or.inl (goodLine_cons hc hg)
          | inr hr => exact Or.inr ⟨by simp [eq_comm, hc, hr.1], by simp⟩
        | cons l' ls' => exact ⟨goodLine_cons hc ih.1, ih.2⟩

theorem joinAll_cons (l : Str) (L : List Str) : joinAll (l :: L) = l ++ joinAll L := rfl

theorem pyReadlines_joinAll {L : List Str} (h : linesWF L) : pyReadlines (joinAll L) = L := by
  induction L with
  | nil => rfl
  | cons l L' ih =>
    cases L' with
    | nil =>
      have hl : lastLineOK l := h
      rw [joinAll_cons]
      rw [show joinAll ([] : List Str) = [] from rfl, List.append_nil]
      cases hl with
      | inl hg =>
        obtain ⟨body, hb, rfl⟩ := hg
        have := pyReadlines_body_append hb []
        simpa using this
      | inr hr => exact pyReadlines_no_nl hr.1 hr.2
    | cons l₂ ls =>
      obtain ⟨hg, hwf⟩ := h
      obtain ⟨body, hb, rfl⟩ := hg
      rw [joinAll_cons]
      rw [show (body ++ ['\n']) ++ joinAll (l₂ :: ls) = body ++ '\n' :: joinAll (l₂ :: ls) by simp]
      rw [pyReadlines_body_append hb, ih hwf]

/-! ### Frame lemmas about the write steps -/

theorem set_academy_files_other {nv : Str} {st : PyState} {p : String}
    (hp : p ≠ ACADEMY_PATH) :
    ((set_academy_version_string nv st).1).files p = st.files p := by
  rw [set_academy_version_string]
  cases h : academyTransform nv (pyReadlines (st.files ACADEMY_PATH)) with
  | error e => rfl
  | ok newLines => simp [updateFS, hp]

theorem set_academy_manifest (nv : Str) (st : PyState) :
    ((set_academy_version_string nv st).1).manifest = st.manifest := by
  rw [set_academy_version_string]
  cases h : academyTransform nv (pyReadlines (st.files ACADEMY_PATH)) with
  | error e => rfl
  | ok newLines => rfl

theorem set_package_files_other {nv : Str} {st : PyState} {p : String}
    (hp : p ≠ UNITY_PACKAGE_JSON_PATH) :
    (set_package_version nv st).files p = st.files p := by
  simp [set_package_version, updateFS, hp]

theorem foldl_updateFS_mem (f : String → Str) (c : Str) {d : String} (hd : d ∈ DIRECTORIES) :
    (DIRECTORIES.foldl (fun g dir => updateFS g (initPath dir) c) f) (initPath d) = c := by
  fin_cases hd <;> simp [DIRECTORIES, List.foldl, updateFS, initPath]

theorem foldl_updateFS_other (f : String → Str) (c : Str) {p : String}
    (hp : ∀ d ∈ DIRECTORIES, p ≠ initPath d) :
    (DIRECTORIES.foldl (fun g dir => updateFS g (initPath dir) c) f) p = f p := by
  have h1 := hp "ml-agents/mlagents/trainers" (by simp [DIRECTORIES])
  have h2 := hp "ml-agents-envs/mlagents_envs" (by simp [DIRECTORIES])
  have h3 := hp "gym-unity/gym_unity" (by simp [DIRECTORIES])
  simp [DIRECTORIES, List.foldl, updateFS, h1, h2, h3]

theorem initPath_ne_academy {d : String} (hd : d ∈ DIRECTORIES) :
    initPath d ≠ ACADEMY_PATH := by
  fin_cases hd <;> decide

theorem initPath_ne_unity {d : String} (hd : d ∈ DIRECTORIES) :
    initPath d ≠ UNITY_PACKAGE_JSON_PATH := by
  fin_cases hd <;> decide

theorem set_version_files_component (pv cs rt : Option Str) (st : PyState) {d : String}
    (hd : d ∈ DIRECTORIES) :
    ((set_version pv cs rt st).1).files (initPath d) =
      pythonVersionFileContents (_escape_non_none pv) (_escape_non_none rt) := by
  cases cs with
  | none =>
    simp only [set_version]
    exact foldl_updateFS_mem st.files _ hd
  | some cv =>
    simp only [set_version]
    rw [set_academy_files_other (initPath_ne_academy hd)]
    rw [set_package_files_other (initPath_ne_unity hd)]
    exact foldl_updateFS_mem st.files _ hd

theorem dedup_eq_singleton {α : Type} [DecidableEq α] {l : List α} {a : α} (hne : l ≠ [])
    (hall : ∀ x ∈ l, x = a) : l.dedup = [a] := by
  have h1 : ∀ x ∈ l.dedup, x = a := fun x hx => hall x (List.mem_dedup.mp hx)
  have h2 : a ∈ l.dedup := by
    apply List.mem_dedup.mpr
    cases l with
    | nil => exact absurd rfl hne
    | cons y ys => rw [← hall y (by simp)]; simp
  have h3 := List.nodup_dedup l
  cases hd : l.dedup with
  | nil => rw [hd] at h2; simp at h2
  | cons x xs =>
    rw [hd] at h1 h2 h3
    have hx : x = a := h1 x (by simp)
    cases xs with
    | nil => rw [hx]
    | cons y ys =>
      have hy : y = a := h1 y (by simp)
      have : x ∉ y :: ys := by
        have := List.nodup_cons.mp h3
        exact this.1
      rw [hx, hy] at this
      simp at this

/-! ### The claims -/

/-- C1: the Consistency Checker, assuming every configured component
version file exists and is readable, returns success exactly when the
tokens extracted from all configured component version files are one and
the same non-absent token; otherwise it returns failure (it is a total
function, so it never raises). -/
theorem check_versions_iff (files : String → Str) :
    check_versions files = true ↔
      ∃ v : Str, ∀ d ∈ DIRECTORIES, extract_version_string (files (initPath d)) = some v := by
  have htoks :
      ((DIRECTORIES.map fun directory =>
          (directory, extract_version_string (files (initPath directory)))).map Prod.snd) =
        DIRECTORIES.map fun d => extract_version_string (files (initPath d)) := by
    rw [List.map_map]; rfl
  simp only [check_versions, htoks]
  set toks := DIRECTORIES.map fun d => extract_version_string (files (initPath d)) with htk
  by_cases h : (toks.dedup.length ≠ 1 ∨ none ∈ toks.dedup)
  · rw [if_pos h]
    simp only [Bool.false_eq_true, false_iff]
    rintro ⟨v, hv⟩
    have hall : ∀ x ∈ toks, x = some v := by
      intro x hx
      rw [htk] at hx
      obtain ⟨d, hd, rfl⟩ := List.mem_map.mp hx
      exact hv d hd
    have hne : toks ≠ [] := by rw [htk]; simp [DIRECTORIES]
    have hdd := dedup_eq_singleton hne hall
    rw [hdd] at h
    simp at h
  · rw [if_neg h]
    simp only [true_iff]
    push_neg at h
    obtain ⟨h1, h2⟩ := h
    obtain ⟨x, hx⟩ := List.length_eq_one.mp (by omega : toks.dedup.length = 1)
    have hxmem : x ∈ toks.dedup := by rw [hx]; simp
    have hxne : x ≠ none := fun hxn => h2 (hxn ▸ hxmem)
    obtain ⟨v, rfl⟩ : ∃ v, x = some v := by
      cases x with
      | none => exact absurd rfl hxne
      | some v => exact ⟨v, rfl⟩
    refine ⟨v, fun d hd => ?_⟩
    have hmem : extract_version_string (files (initPath d)) ∈ toks := by
      rw [htk]; exact List.mem_map.mpr ⟨d, hd, rfl⟩
    have : extract_version_string (files (initPath d)) ∈ toks.dedup :=
      List.mem_dedup.mpr hmem
    rw [hx] at this
    simpa using this

/-- C2: for every Python version string and optional release tag, the
Version Writer overwrites each configured component version file with the
one identical rendering of the fixed two-line template, the version
rendered as a double-quoted string literal and the release tag rendered as
a double-quoted string literal when present and as the bare token None
when absent. -/
theorem set_version_writes_identical_template (v : Str) (cs rt : Option Str) (st : PyState)
    {d : String} (hd : d ∈ DIRECTORIES) :
    ((set_version (some v) cs rt st).1).files (initPath d) =
      pythonVersionFileContents ('"' :: v ++ ['"'])
        (match rt with
         | some t => '"' :: t ++ ['"']
         | none => "None".toList) := by
  rw [set_version_files_component (some v) cs rt st hd]
  cases rt <;> rfl

/-- Witness for C2 at a concrete version, release tag and component. -/
theorem set_version_writes_identical_template_witness :
    ((set_version (some "1.2.3".toList) none none ⟨fun _ => [], .nil⟩).1).files
        (initPath "ml-agents/mlagents/trainers") =
      pythonVersionFileContents ('"' :: "1.2.3".toList ++ ['"']) "None".toList :=
  set_version_writes_identical_template "1.2.3".toList none none ⟨fun _ => [], .nil⟩
    (by decide)

/-- C5: after the Version Writer runs with Python version 9.9.9 and release
tag absent, the Version Extractor applied to any resulting component
version file returns exactly the seven-character token consisting of 9.9.9
in double quotes, and a subsequent Consistency Checker run succeeds. -/
theorem set_version_roundtrip (st : PyState) {d : String} (hd : d ∈ DIRECTORIES) :
    extract_version_string
        (((set_version (some "9.9.9".toList) none none st).1).files (initPath d)) =
      some "\"9.9.9\"".toList ∧
    check_versions ((set_version (some "9.9.9".toList) none none st).1).files = true := by
  constructor
  · rw [set_version_files_component (some "9.9.9".toList) none none st hd]
    decide
  · have h1 := set_version_files_component (some "9.9.9".toList) none none st
      (show "ml-agents/mlagents/trainers" ∈ DIRECTORIES by decide)
    have h2 := set_version_files_component (some "9.9.9".toList) none none st
      (show "ml-agents-envs/mlagents_envs" ∈ DIRECTORIES by decide)
    have h3 := set_version_files_component (some "9.9.9".toList) none none st
      (show "gym-unity/gym_unity" ∈ DIRECTORIES by decide)
    simp only [check_versions, DIRECTORIES, List.map_cons, List.map_nil]
    simp only [h1, h2, h3]
    decide

/-- Witness for C5 at a concrete starting state and component. -/
theorem set_version_roundtrip_witness :
    extract_version_string
        (((set_version (some "9.9.9".toList) none none ⟨fun _ => [], .nil⟩).1).files
          (initPath "gym-unity/gym_unity")) =
      some "\"9.9.9\"".toList ∧
    check_versions
        ((set_version (some "9.9.9".toList) none none ⟨fun _ => [], .nil⟩).1).files = true :=
  set_version_roundtrip ⟨fun _ => [], .nil⟩ (by decide)

/-- C8 (amended): the Version Extractor returns, for the first line that
starts with the marker, that line with every occurrence of the marker
substring removed and surrounding whitespace trimmed, and returns the
absent value when no line starts with the marker.  (The original claim,
that it returns the trimmed token following the leading marker, fails when
the marker text reoccurs inside the line.) -/
theorem extract_first_marker_line (contents : Str) :
    extract_version_string contents =
      Option.map (fun l => stripCl (removeAll VERSION_LINE_START l))
        ((pyReadlines contents).find? fun l => startsWithCl VERSION_LINE_START l) := by
  rw [extract_version_string]
  generalize pyReadlines contents = L
  induction L with
  | nil => rfl
  | cons l ls ih =>
    by_cases h : startsWithCl VERSION_LINE_START l = true
    · rw [extractFromLines, if_pos h, List.find?_cons_of_pos _ h]
      rfl
    · rw [extractFromLines, if_neg h, List.find?_cons_of_neg _ (by simpa using h), ih]

/-- Counterexample to C8 as stated: on a version line whose token itself
contains the marker text, the extractor does not return the trimmed suffix
following the leading marker (it removes every occurrence instead). -/
theorem extract_not_suffix_counterexample :
    extract_version_string "__version__ = a__version__ = b\n".toList = some "ab".toList ∧
    stripCl (List.drop VERSION_LINE_START.length "__version__ = a__version__ = b\n".toList) =
      "a__version__ = b".toList ∧
    ("ab".toList : Str) ≠ "a__version__ = b".toList := by
  exact ⟨by decide, by decide, by decide⟩

/-- C9: for a line that starts with the version marker, the extractor
returns the line with every occurrence of the marker removed and then
stripped, and on a concrete version token containing the marker text this
differs from the trimmed suffix after the leading marker. -/
theorem extract_replaces_every_occurrence :
    (∀ (l : Str) (ls : List Str), startsWithCl VERSION_LINE_START l = true →
        extractFromLines (l :: ls) = some (stripCl (removeAll VERSION_LINE_START l))) ∧
    extract_version_string "__version__ = 1__version__ = 2\n".toList = some "12".toList ∧
    stripCl (removeAll VERSION_LINE_START "__version__ = 1__version__ = 2\n".toList) ≠
      stripCl (List.drop VERSION_LINE_START.length
        "__version__ = 1__version__ = 2\n".toList) := by
  refine ⟨fun l ls h => ?_, by decide, by decide⟩
  rw [extractFromLines, if_pos h]

/-- Witness for C9 at a concrete line. -/
theorem extract_replaces_every_occurrence_witness :
    extractFromLines ["__version__ = \"0.16.0\"\n".toList] =
      some (stripCl (removeAll VERSION_LINE_START "__version__ = \"0.16.0\"\n".toList)) :=
  extract_replaces_every_occurrence.1 "__version__ = \"0.16.0\"\n".toList [] (by decide)

/-- C10: mode dispatch tests truthiness, not presence: the empty string as
Python version selects verification mode (exiting 0 or 1 and leaving the
state unchanged), and write mode runs exactly when the Python version
string is nonempty. -/
theorem main_dispatch_truthiness :
    (∀ (cs rt : Option Str) (st : PyState),
        main_dispatch (some []) cs rt st =
          (st, .exited (if check_versions st.files then 0 else 1))) ∧
    (∀ (v : Str) (cs rt : Option Str) (st : PyState), v ≠ [] →
        main_dispatch (some v) cs rt st =
          ((set_version (some v) cs rt st).1,
            match (set_version (some v) cs rt st).2 with
            | none => .completed
            | some e => .raised e)) := by
  constructor
  · intro cs rt st
    rw [main_dispatch]
    rfl
  · intro v cs rt st hv
    have ht : truthy (some v) = true := by
      cases v with
      | nil => exact absurd rfl hv
      | cons c cs' => rfl
    rw [main_dispatch, if_pos ht]
    cases h : set_version (some v) cs rt st with
    | mk st' e =>
      cases e with
      | none => rfl
      | some e' => rfl

/-- Witness for C10 write mode at a concrete nonempty version. -/
theorem main_dispatch_truthiness_witness :
    main_dispatch (some "1".toList) none none ⟨fun _ => [], .nil⟩ =
      ((set_version (some "1".toList) none none ⟨fun _ => [], .nil⟩).1,
        match (set_version (some "1".toList) none none ⟨fun _ => [], .nil⟩).2 with
        | none => MainOutcome.completed
        | some e => MainOutcome.raised e) :=
  main_dispatch_truthiness.2 "1".toList none none ⟨fun _ => [], .nil⟩ (by decide)

/-! ### Lemmas about the manifest update -/

theorem lookupKey_setKey_self {k : String} {v : JVal} :
    ∀ {m : JMembers}, hasKey k m = true → lookupKey k (setKey k v m) = some v
  | .nil, h => by simp [hasKey] at h
  | .cons k' v' rest, h => by
    by_cases hk : k' = k
    · rw [setKey, if_pos hk, lookupKey, if_pos hk]
    · rw [hasKey] at h
      simp only [hk, Bool.false_or, decide_eq_true_eq] at h
      rw [setKey, if_neg hk, lookupKey, if_neg hk]
      exact lookupKey_setKey_self (by simpa using h)

theorem lookupKey_setKey_other {k k' : String} {v : JVal} (h : k' ≠ k) :
    ∀ (m : JMembers), lookupKey k' (setKey k v m) = lookupKey k' m
  | .nil => rfl
  | .cons k₀ v₀ rest => by
    by_cases hk : k₀ = k
    · rw [setKey, if_pos hk, lookupKey, lookupKey]
      have hne : k₀ ≠ k' := fun hc => h (hc ▸ hk ▸ rfl)
      rw [if_neg hne, if_neg hne, lookupKey_setKey_other h rest]
    · rw [setKey, if_neg hk, lookupKey, lookupKey]
      by_cases h0 : k₀ = k'
      · rw [if_pos h0, if_pos h0]
      · rw [if_neg h0, if_neg h0, lookupKey_setKey_other h rest]

theorem keysOf_setKey (k : String) (v : JVal) :
    ∀ (m : JMembers), keysOf (setKey k v m) = keysOf m
  | .nil => rfl
  | .cons k₀ v₀ rest => by
    by_cases hk : k₀ = k
    · rw [setKey, if_pos hk, keysOf, keysOf, keysOf_setKey k v rest]
    · rw [setKey, if_neg hk, keysOf, keysOf, keysOf_setKey k v rest]

theorem setKey_setKey (k : String) (v : JVal) :
    ∀ (m : JMembers), setKey k v (setKey k v m) = setKey k v m
  | .nil => rfl
  | .cons k₀ v₀ rest => by
    by_cases hk : k₀ = k
    · rw [setKey, if_pos hk, setKey, if_pos hk, setKey_setKey k v rest]
    · rw [setKey, if_neg hk, setKey, if_neg hk, setKey_setKey k v rest]

theorem hasKey_setKey (k k' : String) (v : JVal) :
    ∀ (m : JMembers), hasKey k' (setKey k v m) = hasKey k' m
  | .nil => rfl
  | .cons k₀ v₀ rest => by
    by_cases hk : k₀ = k
    · rw [setKey, if_pos hk, hasKey, hasKey, hasKey_setKey k k' v rest]
    · rw [setKey, if_neg hk, hasKey, hasKey, hasKey_setKey k k' v rest]

/-- The intermediate state after step one of `set_version`: every
component version file overwritten with the rendered template. -/
def componentsWritten (pv rt : Option Str) (st : PyState) : PyState where
  files := DIRECTORIES.foldl
    (fun f d => updateFS f (initPath d)
      (pythonVersionFileContents (_escape_non_none pv) (_escape_non_none rt)))
    st.files
  manifest := st.manifest

theorem set_version_none_eq (pv rt : Option Str) (st : PyState) :
    set_version pv none rt st = (componentsWritten pv rt st, none) := rfl

theorem set_version_some_eq (pv rt : Option Str) (cv : Str) (st : PyState) :
    set_version pv (some cv) rt st =
      set_academy_version_string (cv ++ "-preview".toList)
        (set_package_version (cv ++ "-preview".toList) (componentsWritten pv rt st)) := rfl

theorem set_version_manifest (pv rt : Option Str) (cv : Str) (st : PyState) :
    ((set_version pv (some cv) rt st).1).manifest =
      (if hasKey "version" st.manifest then
        setKey "version" (.str (cv ++ "-preview".toList)) st.manifest
       else st.manifest) := by
  rw [set_version_some_eq, set_academy_manifest]
  rfl

theorem set_version_files_unity (pv rt : Option Str) (cv : Str) (st : PyState) :
    ((set_version pv (some cv) rt st).1).files UNITY_PACKAGE_JSON_PATH =
      pyJsonDump 2 (.obj ((set_version pv (some cv) rt st).1).manifest) := by
  rw [set_version_some_eq,
    set_academy_files_other (by decide : UNITY_PACKAGE_JSON_PATH ≠ ACADEMY_PATH),
    set_academy_manifest]
  simp [set_package_version, updateFS]

/-- C7: when a native version v is supplied, the manifest update sets the
version field to exactly v plus the -preview suffix and does so only when
that field already exists (absence leaves the document untouched and is
not an error - the update function is total); every other field keeps its
parsed value, the key set is unchanged, and the manifest file is
re-serialized with 2-space indentation from the updated document. -/
theorem set_version_manifest_update (pv rt : Option Str) (cv : Str) (st : PyState) :
    (hasKey "version" st.manifest = true →
        lookupKey "version" ((set_version pv (some cv) rt st).1).manifest =
          some (.str (cv ++ "-preview".toList))) ∧
    (hasKey "version" st.manifest = false →
        ((set_version pv (some cv) rt st).1).manifest = st.manifest) ∧
    (∀ k : String, k ≠ "version" →
        lookupKey k ((set_version pv (some cv) rt st).1).manifest =
          lookupKey k st.manifest) ∧
    keysOf ((set_version pv (some cv) rt st).1).manifest = keysOf st.manifest ∧
    ((set_version pv (some cv) rt st).1).files UNITY_PACKAGE_JSON_PATH =
      pyJsonDump 2 (.obj ((set_version pv (some cv) rt st).1).manifest) := by
  refine ⟨?_, ?_, ?_, ?_, set_version_files_unity pv rt cv st⟩
  · intro h
    rw [set_version_manifest, if_pos h]
    exact lookupKey_setKey_self h
  · intro h
    rw [set_version_manifest, if_neg (by simp [h])]
  · intro k hk
    rw [set_version_manifest]
    by_cases h : hasKey "version" st.manifest = true
    · rw [if_pos h]
      exact lookupKey_setKey_other hk st.manifest
    · rw [if_neg h]
  · rw [set_version_manifest]
    by_cases h : hasKey "version" st.manifest = true
    · rw [if_pos h]
      exact keysOf_setKey _ _ _
    · rw [if_neg h]

/-- Witness for C7 at a concrete manifest holding a version field. -/
theorem set_version_manifest_update_witness :
    lookupKey "version"
        ((set_version (some "1".toList) (some "1.0.0".toList) none
          ⟨fun _ => [], .cons "version" (.str "0.15.0".toList)
            (.cons "name" (.str "com.unity.ml-agents".toList) .nil)⟩).1).manifest =
      some (.str ("1.0.0".toList ++ "-preview".toList)) :=
  (set_version_manifest_update (some "1".toList) none "1.0.0".toList
    ⟨fun _ => [], .cons "version" (.str "0.15.0".toList)
      (.cons "name" (.str "com.unity.ml-agents".toList) .nil)⟩).1 (by decide)

/-! ### Lemmas about the native source step -/

/-- The number of lines of the file in which the needle occurs; this is the
final value of the `found` counter when the loop completes. -/
def markerCount (lines : List Str) : Nat :=
  (lines.filter fun l => containsCl NEEDLE l).length

/-- A state whose native source file holds the given content and whose
other files are empty; used to instantiate concrete scenarios. -/
def academyFile (content : Str) : PyState :=
  ⟨fun p => if p = ACADEMY_PATH then content else [], .nil⟩

theorem processLine_no_marker {nv l : Str} (hc : containsCl NEEDLE l = false) :
    processLine nv l = .ok (l, 0) := by
  simp [processLine, hc]

theorem processLine_marker {nv l a b : Str} (hc : containsCl NEEDLE l = true)
    (hs : splitOnCl SEP l = [a, b]) :
    processLine nv l = .ok (a ++ academyRhs nv, 1) := by
  rw [processLine, if_pos hc, hs]

theorem academyLoop_no_marker {nv : Str} {lines : List Str}
    (h : ∀ l ∈ lines, containsCl NEEDLE l = false) :
    academyLoop nv lines = .ok (lines, 0) := by
  induction lines with
  | nil => rfl
  | cons l ls ih =>
    rw [academyLoop, processLine_no_marker (h l (by simp)),
      ih fun x hx => h x (by simp [hx])]

theorem academyLoop_append_no_marker {nv : Str} {pre : List Str} (rest : List Str)
    (h : ∀ x ∈ pre, containsCl NEEDLE x = false) :
    academyLoop nv (pre ++ rest) =
      match academyLoop nv rest with
      | .error e => .error e
      | .ok (ls, n) => .ok (pre ++ ls, n) := by
  induction pre with
  | nil =>
    cases hr : academyLoop nv rest with
    | error e => simp [hr]
    | ok p => cases p with | mk ls n => simp [hr]
  | cons l pre' ih =>
    rw [List.cons_append, academyLoop, processLine_no_marker (h l (by simp)),
      ih fun x hx => h x (by simp [hx])]
    cases hr : academyLoop nv rest with
    | error e => rfl
    | ok p => cases p with | mk ls n => simp

theorem markerCount_cons_pos {l : Str} {ls : List Str} (hc : containsCl NEEDLE l = true) :
    markerCount (l :: ls) = 1 + markerCount ls := by
  simp [markerCount, List.filter_cons, hc]
  omega

theorem markerCount_cons_neg {l : Str} {ls : List Str} (hc : containsCl NEEDLE l = false) :
    markerCount (l :: ls) = markerCount ls := by
  simp [markerCount, List.filter_cons, hc]

theorem academyLoop_ok_of_splits {nv : Str} {lines : List Str}
    (h : ∀ l ∈ lines, containsCl NEEDLE l = true → ∃ a b, splitOnCl SEP l = [a, b]) :
    ∃ nl, academyLoop nv lines = .ok (nl, markerCount lines) := by
  induction lines with
  | nil => exact ⟨[], rfl⟩
  | cons l ls ih =>
    obtain ⟨nl', hok⟩ := ih fun x hx hc => h x (by simp [hx]) hc
    cases hc : containsCl NEEDLE l with
    | true =>
      obtain ⟨a, b, hs⟩ := h l (by simp) hc
      refine ⟨(a ++ academyRhs nv) :: nl', ?_⟩
      rw [academyLoop, processLine_marker hc hs, hok, markerCount_cons_pos hc]
    | false =>
      refine ⟨l :: nl', ?_⟩
      rw [academyLoop, processLine_no_marker hc, hok, markerCount_cons_neg hc]
      simp

theorem academyTransform_ok_iff {nv : Str} {lines nl : List Str} :
    academyTransform nv lines = .ok nl ↔ academyLoop nv lines = .ok (nl, 1) := by
  rw [academyTransform]
  cases h : academyLoop nv lines with
  | error e => simp
  | ok p =>
    cases p with
    | mk ls n =>
      by_cases hn : n = 1
      · subst hn; simp
      · simp [hn]

/-- C4 (amended): when the marker occurs in exactly one line of the native
source file and that line contains exactly one occurrence of the three
character separator, the native-source step rewrites that line, keeping
everything left of the separator verbatim and replacing the right-hand
side with the package version in quotes, a semicolon and a newline, and
leaves every other line unchanged; the final conjunct witnesses that the
preserved part is indeed everything left of the single separator.  (The
original claim fails when the marker line contains a second separator:
the two-value unpacking of split raises instead of rewriting.) -/
theorem set_academy_rewrites_marker_line (nv : Str) (st : PyState)
    (pre post : List Str) (l a b : Str)
    (hL : pyReadlines (st.files ACADEMY_PATH) = pre ++ l :: post)
    (hpre : ∀ x ∈ pre, containsCl NEEDLE x = false)
    (hpost : ∀ x ∈ post, containsCl NEEDLE x = false)
    (hc : containsCl NEEDLE l = true)
    (hs : splitOnCl SEP l = [a, b]) :
    set_academy_version_string nv st =
      (⟨updateFS st.files ACADEMY_PATH (joinAll (pre ++ (a ++ academyRhs nv) :: post)),
        st.manifest⟩, none) ∧
    l = a ++ SEP ++ b := by
  have hsep : SEP ≠ [] := by decide
  refine ⟨?_, splitOnCl_pair_reconstruct hsep hs⟩
  have hloop : academyLoop nv (pre ++ l :: post) =
      .ok (pre ++ (a ++ academyRhs nv) :: post, 1) := by
    rw [academyLoop_append_no_marker (l :: post) hpre]
    rw [academyLoop, processLine_marker hc hs, academyLoop_no_marker hpost]
  rw [set_academy_version_string, hL]
  rw [show academyTransform nv (pre ++ l :: post) =
      .ok (pre ++ (a ++ academyRhs nv) :: post) from
    academyTransform_ok_iff.mpr hloop]

/-- Witness for C4 at a concrete one-line native source file. -/
theorem set_academy_rewrites_marker_line_witness :
    set_academy_version_string "1.0.0-preview".toList
        (academyFile "internal const string k_PackageVersion = \"0.15.0\";\n".toList) =
      (⟨updateFS
          (academyFile "internal const string k_PackageVersion = \"0.15.0\";\n".toList).files
          ACADEMY_PATH
          (joinAll ([] ++ ("internal const string k_PackageVersion".toList ++
            academyRhs "1.0.0-preview".toList) :: [])),
        (academyFile "internal const string k_PackageVersion = \"0.15.0\";\n".toList).manifest⟩,
        none) ∧
    "internal const string k_PackageVersion = \"0.15.0\";\n".toList =
      "internal const string k_PackageVersion".toList ++ SEP ++ "\"0.15.0\";\n".toList :=
  set_academy_rewrites_marker_line "1.0.0-preview".toList
    (academyFile "internal const string k_PackageVersion = \"0.15.0\";\n".toList)
    [] [] "internal const string k_PackageVersion = \"0.15.0\";\n".toList
    "internal const string k_PackageVersion".toList "\"0.15.0\";\n".toList
    (by decide)
    (fun x hx => absurd hx (List.not_mem_nil x))
    (fun x hx => absurd hx (List.not_mem_nil x))
    (by decide) (by decide)

/-- Counterexample to C4 as stated: on a marker line holding two
separator occurrences, the step raises ValueError and leaves the file
unchanged instead of preserving the left of the first separator and
replacing the rest. -/
theorem set_academy_two_separators_counterexample :
    (set_academy_version_string "1.0.0-preview".toList
        (academyFile "internal const string k_PackageVersion = \"a\" = \"b\";\n".toList)).2 =
      some PyError.valueError ∧
    (set_academy_version_string "1.0.0-preview".toList
        (academyFile "internal const string k_PackageVersion = \"a\" = \"b\";\n".toList)).1.files
        ACADEMY_PATH =
      "internal const string k_PackageVersion = \"a\" = \"b\";\n".toList ∧
    ("internal const string k_PackageVersion = \"a\" = \"b\";\n".toList : Str) ≠
      "internal const string k_PackageVersion = \"1.0.0-preview\";\n".toList := by
  exact ⟨by decide, by decide, by decide⟩

/-- C3 (amended): when the marker occurs in zero lines, or in more than one
line each holding exactly one separator occurrence, the write run raises
the RuntimeError carrying the needle text and the found count, the native
source file is left unchanged, and the component version files and the
manifest written by the earlier steps of the same invocation keep their
newly written content.  (As stated the claim also covers marker lines that
the two-value unpacking rejects; there the raised error is a ValueError
carrying neither the marker text nor the count.) -/
theorem set_version_marker_count_violation (pv rt : Option Str) (cv : Str) (st : PyState)
    (hcount : markerCount (pyReadlines (st.files ACADEMY_PATH)) ≠ 1)
    (hsplit : ∀ l ∈ pyReadlines (st.files ACADEMY_PATH), containsCl NEEDLE l = true →
        ∃ a b, splitOnCl SEP l = [a, b]) :
    (set_version pv (some cv) rt st).2 =
      some (.runtimeError NEEDLE (markerCount (pyReadlines (st.files ACADEMY_PATH)))) ∧
    ((set_version pv (some cv) rt st).1).files ACADEMY_PATH = st.files ACADEMY_PATH ∧
    (∀ d ∈ DIRECTORIES, ((set_version pv (some cv) rt st).1).files (initPath d) =
        pythonVersionFileContents (_escape_non_none pv) (_escape_non_none rt)) ∧
    ((set_version pv (some cv) rt st).1).manifest =
      (if hasKey "version" st.manifest then
        setKey "version" (JVal.str (cv ++ "-preview".toList)) st.manifest
       else st.manifest) ∧
    ((set_version pv (some cv) rt st).1).files UNITY_PACKAGE_JSON_PATH =
      pyJsonDump 2 (JVal.obj ((set_version pv (some cv) rt st).1).manifest) := by
  have hacad : ∀ d ∈ DIRECTORIES, ACADEMY_PATH ≠ initPath d :=
    fun d hd => (initPath_ne_academy hd).symm
  have hfiles2 :
      (set_package_version (cv ++ "-preview".toList)
        (componentsWritten pv rt st)).files ACADEMY_PATH = st.files ACADEMY_PATH := by
    rw [set_package_files_other (by decide : ACADEMY_PATH ≠ UNITY_PACKAGE_JSON_PATH)]
    exact foldl_updateFS_other st.files
      (pythonVersionFileContents (_escape_non_none pv) (_escape_non_none rt)) hacad
  obtain ⟨nl, hloop⟩ :=
    @academyLoop_ok_of_splits (cv ++ "-preview".toList)
      (pyReadlines (st.files ACADEMY_PATH)) hsplit
  have htrans : academyTransform (cv ++ "-preview".toList)
      (pyReadlines (st.files ACADEMY_PATH)) =
      .error (.runtimeError NEEDLE (markerCount (pyReadlines (st.files ACADEMY_PATH)))) := by
    rw [academyTransform, hloop]
    simp [hcount]
  refine ⟨?_, ?_, fun d hd => set_version_files_component pv (some cv) rt st hd,
    set_version_manifest pv rt cv st, set_version_files_unity pv rt cv st⟩
  · rw [set_version_some_eq, set_academy_version_string, hfiles2, htrans]
  · rw [set_version_some_eq, set_academy_version_string, hfiles2, htrans]
    exact hfiles2

/-- Witness for C3 at a concrete native source file with no marker line. -/
theorem set_version_marker_count_violation_witness :
    (set_version (some "1".toList) (some "2".toList) none (academyFile "x\n".toList)).2 =
      some (.runtimeError NEEDLE
        (markerCount (pyReadlines ((academyFile "x\n".toList).files ACADEMY_PATH)))) ∧
    ((set_version (some "1".toList) (some "2".toList) none
        (academyFile "x\n".toList)).1).files ACADEMY_PATH =
      (academyFile "x\n".toList).files ACADEMY_PATH := by
  have h := set_version_marker_count_violation (some "1".toList) none "2".toList
    (academyFile "x\n".toList) (by decide)
    (fun l hl hc => by
      rw [show pyReadlines ((academyFile "x\n".toList).files ACADEMY_PATH) =
        ["x\n".toList] by decide, List.mem_singleton] at hl
      subst hl
      exact absurd hc (by decide))
  exact ⟨h.1, h.2.1⟩

/-- Counterexample to C3 as stated: with the marker occurring in two lines,
the first of which holds no separator, the raised error is the ValueError
of the failed unpacking, not an error carrying the marker text and the
count of two. -/
theorem set_version_marker_count_valueerror_counterexample :
    (set_version (some "1".toList) (some "2".toList) none
        (academyFile ("internal const string k_PackageVersion\n" ++
          "internal const string k_PackageVersion = \"a\";\n").toList)).2 =
      some PyError.valueError ∧
    markerCount (pyReadlines ((academyFile ("internal const string k_PackageVersion\n" ++
        "internal const string k_PackageVersion = \"a\";\n").toList).files ACADEMY_PATH)) = 2 ∧
    some PyError.valueError ≠ some (PyError.runtimeError NEEDLE 2) := by
  exact ⟨by decide, by decide, by decide⟩

/-! ### Lemmas towards idempotence of the writer -/

theorem academyRhs_eq (nv : Str) :
    academyRhs nv = SEP ++ ('"' :: (nv ++ "\";\n".toList)) := by
  have h : " = \"".toList = SEP ++ ['"'] := by decide
  rw [academyRhs, h]
  simp

theorem processLine_ok_cases {nv l l' : Str} {k : Nat} (h : processLine nv l = .ok (l', k)) :
    (k = 0 ∧ l' = l ∧ containsCl NEEDLE l = false) ∨
    (k = 1 ∧ containsCl NEEDLE l = true ∧
      ∃ a b, splitOnCl SEP l = [a, b] ∧ l' = a ++ academyRhs nv) := by
  by_cases hc : containsCl NEEDLE l = true
  · right
    rw [processLine, if_pos hc] at h
    cases hsp : splitOnCl SEP l with
    | nil => rw [hsp] at h; simp at h
    | cons x xs =>
      cases xs with
      | nil => rw [hsp] at h; simp at h
      | cons y ys =>
        cases ys with
        | nil =>
          rw [hsp] at h
          simp only [Except.ok.injEq, Prod.mk.injEq] at h
          exact ⟨h.2.symm, hc, x, y, rfl, h.1.symm⟩
        | cons z zs => rw [hsp] at h; simp at h
  · left
    rw [processLine, if_neg hc] at h
    simp only [Except.ok.injEq, Prod.mk.injEq] at h
    exact ⟨h.2.symm, h.1.symm, by simpa using hc⟩

theorem processLine_second {nv l l' : Str} (a b : Str)
    (hsp : splitOnCl SEP l = [a, b]) (hl' : l' = a ++ academyRhs nv) :
    processLine nv l' = .error .valueError ∨ processLine nv l' = .ok (l', 1) ∨
      processLine nv l' = .ok (l', 0) := by
  by_cases hc : containsCl NEEDLE l' = true
  · have hrw : l' = (a ++ SEP) ++ ('"' :: (nv ++ "\";\n".toList)) := by
      rw [hl', academyRhs_eq]
      simp
    have hsplit2 := splitOnCl_append_pair (by decide : SEP ≠ []) a l b hsp
      ('"' :: (nv ++ "\";\n".toList))
    have hrw2 : splitOnCl SEP l' =
        a :: splitOnCl SEP ('"' :: (nv ++ "\";\n".toList)) := by
      rw [hrw]
      exact hsplit2
    cases hrest : splitOnCl SEP ('"' :: (nv ++ "\";\n".toList)) with
    | nil => exact absurd hrest (splitOnCl_ne_nil _ _)
    | cons r rs =>
      cases rs with
      | nil =>
        right; left
        rw [processLine, if_pos hc, hrw2, hrest, hl']
      | cons r2 rs2 =>
        left
        rw [processLine, if_pos hc, hrw2, hrest]
  · right; right
    exact processLine_no_marker (by simpa using hc)

theorem academyLoop_second {nv : Str} {lines nl : List Str} {n : Nat}
    (h : academyLoop nv lines = .ok (nl, n)) :
    (∃ e, academyLoop nv nl = .error e) ∨ ∃ m, m ≤ n ∧ academyLoop nv nl = .ok (nl, m) := by
  induction lines generalizing nl n with
  | nil =>
    simp only [academyLoop, Except.ok.injEq, Prod.mk.injEq] at h
    obtain ⟨h1, h2⟩ := h
    subst h1
    exact Or.inr ⟨0, by omega, rfl⟩
  | cons l ls ih =>
    rw [academyLoop] at h
    cases hp : processLine nv l with
    | error e => rw [hp] at h; simp at h
    | ok p =>
      cases p with
      | mk l' k =>
        rw [hp] at h
        cases hq : academyLoop nv ls with
        | error e => rw [hq] at h; simp at h
        | ok q =>
          cases q with
          | mk ls' n' =>
            rw [hq] at h
            simp only [Except.ok.injEq, Prod.mk.injEq] at h
            obtain ⟨hnl, hn⟩ := h
            subst hnl
            rcases processLine_ok_cases hp with ⟨hk0, hll, hc⟩ | ⟨hk1, hc, a, b, hsp2, hll⟩
            · subst hk0
              have h2 : processLine nv l' = .ok (l', 0) := by
                rw [hll]
                exact processLine_no_marker hc
              rcases ih hq with ⟨e, he⟩ | ⟨m', hm', hok'⟩
              · exact Or.inl ⟨e, by rw [academyLoop, h2, he]⟩
              · exact Or.inr ⟨0 + m', by omega, by rw [academyLoop, h2, hok']⟩
            · subst hk1
              rcases processLine_second a b hsp2 hll with h2 | h2 | h2
              · exact Or.inl ⟨.valueError, by rw [academyLoop, h2]⟩
              · rcases ih hq with ⟨e, he⟩ | ⟨m', hm', hok'⟩
                · exact Or.inl ⟨e, by rw [academyLoop, h2, he]⟩
                · exact Or.inr ⟨1 + m', by omega, by rw [academyLoop, h2, hok']⟩
              · rcases ih hq with ⟨e, he⟩ | ⟨m', hm', hok'⟩
                · exact Or.inl ⟨e, by rw [academyLoop, h2, he]⟩
                · exact Or.inr ⟨0 + m', by omega, by rw [academyLoop, h2, hok']⟩

theorem mem_take_of_append {α : Type} {a x body : List α} {c : α}
    (heq : a ++ x = body ++ [c]) (hlen : a.length ≤ body.length) :
    ∀ y ∈ a, y ∈ body := by
  intro y hy
  have h1 : (a ++ x).take a.length = a := List.take_left a x
  have h2 : (body ++ [c]).take a.length = body.take a.length := by
    rw [List.take_append_of_le_length hlen]
  rw [heq] at h1
  rw [h2] at h1
  rw [← h1] at hy
  exact List.take_subset _ _ hy

theorem processLine_goodLine {nv l l' : Str} {k : Nat} (hnl : '\n' ∉ nv)
    (h : processLine nv l = .ok (l', k)) :
    (goodLine l → goodLine l') ∧ (lastLineOK l → lastLineOK l') := by
  rcases processLine_ok_cases h with ⟨_, rfl, _⟩ | ⟨_, _, a, b, hsp, rfl⟩
  · exact ⟨id, id⟩
  · have hl : l = a ++ SEP ++ b := splitOnCl_pair_reconstruct (by decide) hsp
    have key : lastLineOK l → goodLine (a ++ academyRhs nv) := by
      intro hlast
      have hna : '\n' ∉ a := by
        cases hlast with
        | inl hg =>
          obtain ⟨body, hb, hbody⟩ := hg
          intro hmem
          apply hb
          have heq : a ++ (SEP ++ b) = body ++ ['\n'] := by
            rw [← List.append_assoc, ← hl, hbody]
          have hlen : a.length ≤ body.length := by
            have e1 : a.length + (SEP ++ b).length = body.length + 1 := by
              rw [← List.length_append, heq, List.length_append]
              rfl
            have e2 : 0 < (SEP ++ b).length := by simp [SEP]
            omega
          exact mem_take_of_append heq hlen '\n' hmem
        | inr hr =>
          intro hmem
          apply hr.1
          rw [hl]
          simp [hmem]
      refine ⟨a ++ (" = \"".toList ++ nv ++ "\";".toList), ?_, ?_⟩
      · intro hmem
        rcases List.mem_append.mp hmem with hm | hm
        · exact hna hm
        · rcases List.mem_append.mp hm with hm' | hm'
          · rcases List.mem_append.mp hm' with hm'' | hm''
            · revert hm''; decide
            · exact hnl hm''
          · revert hm'; decide
      · rw [academyRhs]
        have : "\";\n".toList = "\";".toList ++ ['\n'] := by decide
        rw [this]
        simp
    constructor
    · intro hg
      exact key (Or.inl hg)
    · intro hlast
      exact Or.inl (key hlast)

theorem academyLoop_WF {nv : Str} (hnl : '\n' ∉ nv) :
    ∀ {lines nl : List Str} {n : Nat},
      academyLoop nv lines = .ok (nl, n) → linesWF lines → linesWF nl := by
  intro lines
  induction lines with
  | nil =>
    intro nl n h _
    simp only [academyLoop, Except.ok.injEq, Prod.mk.injEq] at h
    rw [← h.1]
    trivial
  | cons l ls ih =>
    intro nl n h hwf
    rw [academyLoop] at h
    cases hp : processLine nv l with
    | error e => rw [hp] at h; simp at h
    | ok p =>
      cases p with
      | mk l' k =>
        rw [hp] at h
        cases hq : academyLoop nv ls with
        | error e => rw [hq] at h; simp at h
        | ok q =>
          cases q with
          | mk ls' n' =>
            rw [hq] at h
            simp only [Except.ok.injEq, Prod.mk.injEq] at h
            rw [← h.1]
            cases ls with
            | nil =>
              have hls' : ls' = [] := by
                simp only [academyLoop, Except.ok.injEq, Prod.mk.injEq] at hq
                exact hq.1.symm
              subst hls'
              exact (processLine_goodLine hnl hp).2 hwf
            | cons l2 ls2 =>
              exact linesWF_cons ((processLine_goodLine hnl hp).1 hwf.1)
                (ih hq hwf.2)

theorem updateFS_self (f : String → Str) (p : String) : updateFS f p (f p) = f := by
  funext q
  rw [updateFS]
  by_cases h : q = p
  · rw [if_pos h, h]
  · rw [if_neg h]

theorem updateFS_lookup (f : String → Str) (p : String) (c : Str) : updateFS f p c p = c := by
  simp [updateFS]

theorem foldl_updateFS_id {g : String → Str} {c : Str}
    (h : ∀ d ∈ DIRECTORIES, g (initPath d) = c) :
    DIRECTORIES.foldl (fun f dir => updateFS f (initPath dir) c) g = g := by
  have h1 := h "ml-agents/mlagents/trainers" (by decide)
  have h2 := h "ml-agents-envs/mlagents_envs" (by decide)
  have h3 := h "gym-unity/gym_unity" (by decide)
  have e1 : updateFS g (initPath "ml-agents/mlagents/trainers") c = g := by
    rw [← h1]
    exact updateFS_self g _
  have e2 : updateFS g (initPath "ml-agents-envs/mlagents_envs") c = g := by
    rw [← h2]
    exact updateFS_self g _
  have e3 : updateFS g (initPath "gym-unity/gym_unity") c = g := by
    rw [← h3]
    exact updateFS_self g _
  show updateFS (updateFS (updateFS g (initPath "ml-agents/mlagents/trainers") c)
      (initPath "ml-agents-envs/mlagents_envs") c) (initPath "gym-unity/gym_unity") c = g
  rw [e1, e2, e3]

theorem componentsWritten_files_mem {pv rt : Option Str} {s : PyState} {d : String}
    (hd : d ∈ DIRECTORIES) :
    (componentsWritten pv rt s).files (initPath d) =
      pythonVersionFileContents (_escape_non_none pv) (_escape_non_none rt) := by
  unfold componentsWritten
  exact foldl_updateFS_mem s.files _ hd

theorem componentsWritten_id {pv rt : Option Str} {s : PyState}
    (h : ∀ d ∈ DIRECTORIES, s.files (initPath d) =
      pythonVersionFileContents (_escape_non_none pv) (_escape_non_none rt)) :
    componentsWritten pv rt s = s := by
  unfold componentsWritten
  rw [foldl_updateFS_id h]

theorem set_package_version_manifest_eq (nv : Str) (s : PyState) :
    (set_package_version nv s).manifest =
      (if hasKey "version" s.manifest then setKey "version" (.str nv) s.manifest
       else s.manifest) := rfl

theorem set_package_version_files_unity (nv : Str) (s : PyState) :
    (set_package_version nv s).files UNITY_PACKAGE_JSON_PATH =
      pyJsonDump 2 (.obj ((set_package_version nv s).manifest)) := by
  simp only [set_package_version]
  exact updateFS_lookup _ _ _

/-- C6 (amended): provided the first invocation raises nothing and the
supplied native version (when present) contains no newline character, a
second invocation of the Version Writer with the same arguments leaves the
whole state - component version files, manifest and native source file -
byte-identical to the state after the first invocation.  (The original
claim fails for a native version containing a newline: the first write
splits the rewritten constant line in two, and the second invocation then
duplicates its tail.) -/
theorem set_version_idempotent (pv cs rt : Option Str) (st : PyState)
    (hok : (set_version pv cs rt st).2 = none)
    (hnlcv : ∀ cv, cs = some cv → '\n' ∉ cv) :
    (set_version pv cs rt (set_version pv cs rt st).1).1 = (set_version pv cs rt st).1 := by
  cases cs with
  | none =>
    rw [set_version_none_eq, set_version_none_eq]
    show componentsWritten pv rt (componentsWritten pv rt st) = componentsWritten pv rt st
    exact componentsWritten_id fun d hd => componentsWritten_files_mem hd
  | some cv =>
    have hnv : '\n' ∉ cv ++ "-preview".toList := by
      intro hm
      rcases List.mem_append.mp hm with h | h
      · exact hnlcv cv rfl h
      · revert h; decide
    rw [set_version_some_eq] at hok
    rw [set_version_some_eq, set_version_some_eq]
    set pkg := cv ++ "-preview".toList with hpkg
    set PW := set_package_version pkg (componentsWritten pv rt st) with hPW
    cases htr : academyTransform pkg (pyReadlines (PW.files ACADEMY_PATH)) with
    | error e =>
      rw [set_academy_version_string, htr] at hok
      simp at hok
    | ok newLines =>
      have hloop := academyTransform_ok_iff.mp htr
      have hstF : (set_academy_version_string pkg PW).1 =
          ⟨updateFS PW.files ACADEMY_PATH (joinAll newLines), PW.manifest⟩ := by
        rw [set_academy_version_string, htr]
      rw [hstF]
      set R : PyState := ⟨updateFS PW.files ACADEMY_PATH (joinAll newLines), PW.manifest⟩
        with hR
      have hRman : R.manifest = PW.manifest := by rw [hR]
      have hRac : R.files ACADEMY_PATH = joinAll newLines := by
        rw [hR]
        show updateFS PW.files ACADEMY_PATH (joinAll newLines) ACADEMY_PATH = joinAll newLines
        exact updateFS_lookup _ _ _
      have hRuni : R.files UNITY_PACKAGE_JSON_PATH = pyJsonDump 2 (.obj R.manifest) := by
        have h1 : R.files UNITY_PACKAGE_JSON_PATH = PW.files UNITY_PACKAGE_JSON_PATH := by
          rw [hR]
          show updateFS PW.files ACADEMY_PATH (joinAll newLines) UNITY_PACKAGE_JSON_PATH =
            PW.files UNITY_PACKAGE_JSON_PATH
          rw [updateFS, if_neg (by decide : UNITY_PACKAGE_JSON_PATH ≠ ACADEMY_PATH)]
        rw [h1, hRman, hPW, set_package_version_files_unity]
      have hRinit : ∀ d ∈ DIRECTORIES, R.files (initPath d) =
          pythonVersionFileContents (_escape_non_none pv) (_escape_non_none rt) := by
        intro d hd
        have h1 : R.files (initPath d) = PW.files (initPath d) := by
          rw [hR]
          show updateFS PW.files ACADEMY_PATH (joinAll newLines) (initPath d) =
            PW.files (initPath d)
          rw [updateFS, if_neg (initPath_ne_academy hd)]
        rw [h1, hPW, set_package_files_other (initPath_ne_unity hd)]
        exact componentsWritten_files_mem hd
      rw [componentsWritten_id hRinit]
      have hvman : (set_package_version pkg R).manifest = R.manifest := by
        rw [set_package_version_manifest_eq, hRman, hPW, set_package_version_manifest_eq]
        by_cases hv : hasKey "version" (componentsWritten pv rt st).manifest = true
        · simp only [if_pos hv, hasKey_setKey, setKey_setKey]
        · simp only [if_neg hv]
      have hPR : set_package_version pkg R = R := by
        have hexp : set_package_version pkg R =
            ⟨updateFS R.files UNITY_PACKAGE_JSON_PATH
              (pyJsonDump 2 (.obj ((set_package_version pkg R).manifest))),
             (set_package_version pkg R).manifest⟩ := rfl
        rw [hexp, hvman, ← hRuni, updateFS_self]
      rw [hPR]
      have hWF2 : linesWF newLines := academyLoop_WF hnv hloop (linesWF_pyReadlines _)
      have hlines2 : pyReadlines (R.files ACADEMY_PATH) = newLines := by
        rw [hRac]
        exact pyReadlines_joinAll hWF2
      rcases academyLoop_second hloop with ⟨e, he⟩ | ⟨m, hm, hok2⟩
      · have htr2 : academyTransform pkg (pyReadlines (R.files ACADEMY_PATH)) = .error e := by
          rw [hlines2, academyTransform, he]
        rw [set_academy_version_string, htr2]
      · by_cases hm1 : m = 1
        · subst hm1
          have htr2 : academyTransform pkg (pyReadlines (R.files ACADEMY_PATH)) =
              .ok newLines := by
            rw [hlines2]
            exact academyTransform_ok_iff.mpr hok2
          rw [set_academy_version_string, htr2]
          show PyState.mk (updateFS R.files ACADEMY_PATH (joinAll newLines)) R.manifest = R
          rw [← hRac, updateFS_self]
        · have htr2 : academyTransform pkg (pyReadlines (R.files ACADEMY_PATH)) =
              .error (.runtimeError NEEDLE m) := by
            rw [hlines2, academyTransform, hok2]
            simp [hm1]
          rw [set_academy_version_string, htr2]

/-- Witness for C6 at a concrete state and newline-free native version. -/
theorem set_version_idempotent_witness :
    (set_version (some "1".toList) (some "1.0.0".toList) none
        (set_version (some "1".toList) (some "1.0.0".toList) none
          (academyFile "internal const string k_PackageVersion = \"0\";\n".toList)).1).1 =
      (set_version (some "1".toList) (some "1.0.0".toList) none
        (academyFile "internal const string k_PackageVersion = \"0\";\n".toList)).1 :=
  set_version_idempotent (some "1".toList) (some "1.0.0".toList) none
    (academyFile "internal const string k_PackageVersion = \"0\";\n".toList)
    (by decide)
    (fun cv h => by
      injection h with h2
      subst h2
      decide)

/-- Counterexample to C6 as stated: with a native version containing a
newline, both invocations complete without error on a file satisfying the
exactly-once marker precondition, yet the native source file after the
second invocation differs from the file after the first. -/
theorem set_version_not_idempotent_counterexample :
    (set_version (some "1".toList) (some "x\ny".toList) none
        (academyFile "internal const string k_PackageVersion = \"0\";\n".toList)).2 = none ∧
    (set_version (some "1".toList) (some "x\ny".toList) none
        (set_version (some "1".toList) (some "x\ny".toList) none
          (academyFile "internal const string k_PackageVersion = \"0\";\n".toList)).1).2 =
      none ∧
    (set_version (some "1".toList) (some "x\ny".toList) none
        (set_version (some "1".toList) (some "x\ny".toList) none
          (academyFile "internal const string k_PackageVersion = \"0\";\n".toList)).1).1.files
        ACADEMY_PATH ≠
      (set_version (some "1".toList) (some "x\ny".toList) none
        (academyFile "internal const string k_PackageVersion = \"0\";\n".toList)).1.files
        ACADEMY_PATH := by
  exact ⟨by decide, by decide, by decide⟩

end ValidateVersions
